import Mathlib

/-!
Verification of the azure-recommendation-system backend pipeline.

Shallow embedding of the Python helpers in `backend/helper/`:
`azure_openai_helper.py` (LLM call with retry, LLM-output parsing),
`recommendation_manager.py` (`_process_llm_output`),
`cosmos_helper.py` (candidate pool, cached article lookup),
`user_manager.py` (`should_skip_update`),
`trending_helper.py` (`get_trending_topics`).

Conventions used throughout:
* JSON values are modelled by the inductive `Json`; numbers are rationals.
* A Python dict field that may be absent is modelled with `Option`
  (`none` = key absent).
* External, unembeddable effects (the network call to the LLM, `json.loads`,
  Python `float()` on strings, the Cosmos queries, the trend feeds) are
  parameters of the functions that use them, so every theorem quantifies
  over their behaviour.
* Python code that can raise is modelled with `Except Unit`; a `try/except`
  block becomes a `match` on the `Except` value.
-/

namespace AzureRec

/-- JSON values as produced by `json.loads`; object fields keep insertion
order, numbers are modelled as rationals. -/
inductive Json where
  | null : Json
  | bool (b : Bool) : Json
  | num (q : ℚ) : Json
  | str (s : String) : Json
  | arr (xs : List Json) : Json
  | obj (kvs : List (String × Json)) : Json

/-- Python truthiness (`bool(x)`) of a JSON value. -/
def jsonTruthy : Json → Bool
  | .null => false
  | .bool b => b
  | .num q => q ≠ 0
  | .str s => s ≠ ""
  | .arr xs => ¬ xs.isEmpty
  | .obj kvs => ¬ kvs.isEmpty

/-- Dict lookup on a JSON object's key/value list.  `json.loads` keeps the
last binding of a duplicated key, hence the reversed search. -/
def objFind (kvs : List (String × Json)) (k : String) : Option Json :=
  (kvs.reverse.find? (fun p => p.1 = k)).map (·.2)

/-- Python `float(x)` on a JSON value: numbers and booleans coerce, strings
coerce through the (uninterpreted) numeric string parser `strFloat`,
everything else raises (modelled as `none`). -/
def floatCoerce (strFloat : String → Option ℚ) : Json → Option ℚ
  | .num q => some q
  | .bool b => some (if b then 1 else 0)
  | .str s => strFloat s
  | _ => none

/-- Python iteration `for x in v`: arrays yield their elements, strings yield
their characters, dicts yield their keys; other values raise `TypeError`
(modelled as `none`). -/
def jsonIter : Json → Option (List Json)
  | .arr xs => some xs
  | .str s => some (s.data.map (fun c => Json.str (String.singleton c)))
  | .obj kvs => some (kvs.map (fun p => Json.str p.1))
  | _ => none

/-- Python `round(x, 4)`: round to 4 decimal places (tie behaviour aside,
modelled with Mathlib's `round` on rationals). -/
def round4 (q : ℚ) : ℚ := (round (q * 10000) : ℚ) / 10000

/-- One entry of the parsed `tags` list:
`{"tag": ..., "score": ..., "wildcard": ...}` as built by
`AzureOpenAIHelper._parse_llm_only_output`.  The `tag` value is kept verbatim
from the JSON (the Python code does not check its type). -/
structure TagEntry where
  tag : Json
  score : ℚ
  wildcard : Bool

/-- One entry of the parsed `articles` list:
`{"id": ..., "score": ..., "wildcard": ...}` as built by
`AzureOpenAIHelper._parse_llm_only_output`.  The `id` value is kept verbatim
from the JSON (the Python code does not check its type). -/
structure ArticleEntry where
  id : Json
  score : ℚ
  wildcard : Bool

/-- Result shape of `_parse_llm_only_output` (and of
`generate_llm_only_recommendations`): `{"tags": [...], "articles": [...]}`. -/
structure LlmOutput where
  tags : List TagEntry
  articles : List ArticleEntry

/-- One iteration of the tag loop of `_parse_llm_only_output`: keep a dict
entry only if it has both `"tag"` and `"score"` keys and the score coerces to
float; clamp the score to `[1.0, 5.0]`. -/
def parseTagEntry (strFloat : String → Option ℚ) (t : Json) : Option TagEntry :=
  match t with
  | .obj kvs =>
    match objFind kvs "tag", objFind kvs "score" with
    | some tagv, some scorev =>
      match floatCoerce strFloat scorev with
      | some q =>
        some { tag := tagv
               score := max 1 (min 5 q)
               wildcard := jsonTruthy ((objFind kvs "wildcard").getD (.bool false)) }
      | none => none
    | _, _ => none
  | _ => none

/-- The tag loop of `_parse_llm_only_output`. -/
def parseTags (strFloat : String → Option ℚ) (items : List Json) : List TagEntry :=
  items.filterMap (parseTagEntry strFloat)

/-- One iteration of the article loop of `_parse_llm_only_output`: keep a
dict entry only if it has both `"id"` and `"score"` keys and the score
coerces to float; clamp the score to `[0.0, 5.0]` and round it to 4 decimal
places. -/
def parseArticleEntry (strFloat : String → Option ℚ) (a : Json) : Option ArticleEntry :=
  match a with
  | .obj kvs =>
    match objFind kvs "id", objFind kvs "score" with
    | some idv, some scorev =>
      match floatCoerce strFloat scorev with
      | some q =>
        some { id := idv
               score := round4 (max 0 (min 5 q))
               wildcard := jsonTruthy ((objFind kvs "wildcard").getD (.bool false)) }
      | none => none
    | _, _ => none
  | _ => none

/-- The article loop of `_parse_llm_only_output`. -/
def parseArticles (strFloat : String → Option ℚ) (items : List Json) : List ArticleEntry :=
  items.filterMap (parseArticleEntry strFloat)

/-- The code-fence stripping prelude of `_parse_llm_only_output`:
`text = response.strip()`, drop a leading ` ```json ` marker and a trailing
` ``` ` marker. -/
def stripFences (response : String) : String :=
  let text := response.trim
  let text := if text.startsWith "```json" then text.drop 7 else text
  if text.endsWith "```" then text.dropRight 3 else text

/-- `AzureOpenAIHelper._parse_llm_only_output`: strip whitespace and optional
code-fence markers, parse as JSON (via the uninterpreted `loads`), then build
the tag and article lists.  Any failure — parse error, non-dict top level,
non-iterable `tags`/`articles` values — is caught by the surrounding
`try/except` and yields the empty `{tags: [], articles: []}` result. -/
def parse_llm_only_output (loads : String → Option Json)
    (strFloat : String → Option ℚ) (response : String) : LlmOutput :=
  match loads (stripFences response) with
  | none => ⟨[], []⟩
  | some data =>
    match data with
    | .obj kvs =>
      match jsonIter ((objFind kvs "tags").getD (.arr [])),
            jsonIter ((objFind kvs "articles").getD (.arr [])) with
      | some tlist, some alist => ⟨parseTags strFloat tlist, parseArticles strFloat alist⟩
      | _, _ => ⟨[], []⟩
    | _ => ⟨[], []⟩

/-- The retry loop of `AzureOpenAIHelper._call_chat_completion`, iterating
over the remaining attempt indices.  `oracle i` is the outcome of the
chat-completion request on attempt `i`.  Returns the list of back-off sleep
durations (seconds) performed between failed attempts, and the final outcome:
the response on success, or the last error re-raised after the final attempt.
An empty index list corresponds to falling off the loop (`return ""`). -/
def call_attempts (oracle : Nat → Except Unit String) :
    List Nat → List Nat × Except Unit String
  | [] => ([], .ok "")
  | attempt :: rest =>
    match oracle attempt with
    | .ok s => ([], .ok s)
    | .error e =>
      match rest with
      | [] => ([], .error e)
      | _ :: _ =>
        let r := call_attempts oracle rest
        (2 ^ attempt :: r.1, r.2)

/-- `AzureOpenAIHelper._call_chat_completion(prompt, max_retries)`:
`for attempt in range(max_retries)` — try the request; on failure sleep
`2 ** attempt` seconds unless it was the last attempt, in which case
re-raise. -/
def call_chat_completion (oracle : Nat → Except Unit String) (maxRetries : Nat) :
    List Nat × Except Unit String :=
  call_attempts oracle (List.range maxRetries)

/-- `AzureOpenAIHelper.generate_llm_only_recommendations`, reduced to the part
relevant to error flow: the whole body sits in a `try/except` whose handler
returns `{"tags": [], "articles": []}`, so an error raised by
`_call_chat_completion` (the only raising step in the model) is converted to
the empty sentinel; on success the raw response is parsed. -/
def generate_llm_only_recommendations (loads : String → Option Json)
    (strFloat : String → Option ℚ) (callOutcome : Except Unit String) : LlmOutput :=
  match callOutcome with
  | .error _ => ⟨[], []⟩
  | .ok raw => parse_llm_only_output loads strFloat raw

/-- An article document as returned by the Cosmos queries (the projection
`SELECT c.id, c.title, c.abstract, c.tags, c.status, c.is_active`).  Each
field is `Option`: `none` models the key being absent from the dict. -/
structure Doc where
  id : Option String
  title : Option String
  abstract : Option String
  tags : Option (List String)
  status : Option String
  active : Option Bool
deriving Repr, DecidableEq

/-- A tag recommendation as stored by
`RecommendationManager._process_llm_output`:
`{"tag": t["tag"], "score": t["score"]}` — exactly two fields, the
`wildcard` flag is dropped. -/
structure TagRec where
  tag : Json
  score : ℚ

/-- An article recommendation as stored by
`RecommendationManager._process_llm_output`:
`{"id": ..., "score": ..., "abstract": ...}`. -/
structure ArticleRec where
  id : String
  score : ℚ
  abstract : String
deriving Repr, DecidableEq

/-- Result of `_process_llm_output`. -/
structure ProcessedOutput where
  tags : List TagRec
  articles : List ArticleRec

/-- Python `s.startswith(pre)`, modelled on the character lists. -/
def strStartsWith (s pre : String) : Bool :=
  List.isPrefixOf pre.data s.data

/-- The id prefixes `_process_llm_output` treats as trend-sourced. -/
def trendPrefixed (s : String) : Bool :=
  strStartsWith s "wildcard-" || strStartsWith s "trending-" ||
  strStartsWith s "newsapi-" || strStartsWith s "reddit-"

/-- The constant abstract `_process_llm_output` attaches to trend-sourced
article ids. -/
def trendingAbstract : String :=
  "Real trending article based on current global events and user interests"

/-- `candidate_abstract_by_id.get(art_id, "")`: the dict comprehension
`{c.get("id"): c.get("abstract", "") for c in candidates}` keeps the last
entry for a duplicated id, hence the reversed search; an id-less candidate
gets key `None` and can never match a string id. -/
def abstractById (candidates : List Doc) (artId : String) : String :=
  match candidates.reverse.find? (fun c => c.id = some artId) with
  | some c => c.abstract.getD ""
  | none => ""

/-- One iteration of the article loop in `_process_llm_output`:
skip entries whose `id` is falsy (`if not art_id: continue`); calling
`.startswith` on a truthy non-string id raises `AttributeError`
(modelled as `.error ()`); otherwise attach the locally-derived abstract. -/
def enrichArticle (candidates : List Doc) (a : ArticleEntry) :
    Except Unit (Option ArticleRec) :=
  if jsonTruthy a.id then
    match a.id with
    | .str s =>
      .ok (some { id := s
                  score := a.score
                  abstract :=
                    if trendPrefixed s then trendingAbstract
                    else abstractById candidates s })
    | _ => .error ()
  else
    .ok none

/-- The article loop of `_process_llm_output` over the (already truncated)
entry list; an exception anywhere aborts the whole loop. -/
def processArticlesLoop (candidates : List Doc) :
    List ArticleEntry → Except Unit (List ArticleRec)
  | [] => .ok []
  | a :: rest =>
    match enrichArticle candidates a with
    | .error e => .error e
    | .ok r =>
      match processArticlesLoop candidates rest with
      | .error e => .error e
      | .ok rest' =>
        .ok (match r with
             | some x => x :: rest'
             | none => rest')

/-- `RecommendationManager._process_llm_output(llm_out, candidates)`:
truncate tags and articles to the first 20 entries, strip tag entries down to
`{tag, score}`, enrich article entries with a locally-derived abstract; any
exception is caught by the surrounding `try/except` which returns
`{"tags": [], "articles": []}`. -/
def process_llm_output (llm : LlmOutput) (candidates : List Doc) : ProcessedOutput :=
  let tagRecs := (llm.tags.take 20).map (fun t => TagRec.mk t.tag t.score)
  match processArticlesLoop candidates (llm.articles.take 20) with
  | .ok arts => ⟨tagRecs, arts⟩
  | .error _ => ⟨[], []⟩

/-- `CosmosHelper.get_candidate_articles(exclude_ids, limit)`: the two query
results (preferred filtered query, unfiltered fallback used only when the
first returns no rows) are inputs; the function drops items whose id is in
the exclusion set and defaults absent `abstract`/`tags` fields
(`it.setdefault`).  A query exception would make the function return `[]`,
which satisfies every claim vacuously and is not modelled separately. -/
def get_candidate_articles (excludeIds : List String)
    (primaryItems fallbackItems : List Doc) : List Doc :=
  let items := if primaryItems.isEmpty then fallbackItems else primaryItems
  items.filterMap fun it =>
    if (match it.id with
        | some s => excludeIds.contains s
        | none => false) then
      none
    else
      some { it with abstract := some (it.abstract.getD "")
                     tags := some (it.tags.getD []) }

/-- A cache entry of `CosmosHelper._article_cache`:
`{'article': ..., 'timestamp': ...}`. -/
structure CacheEntry where
  article : Doc
  timestamp : ℚ
deriving Repr, DecidableEq

/-- The article cache dict, keyed by article id. -/
abbrev Cache := List (String × CacheEntry)

/-- Dict lookup in the cache. -/
def cacheLookup (c : Cache) (k : String) : Option CacheEntry :=
  (c.find? (fun p => p.1 = k)).map (·.2)

/-- `del self._article_cache[k]`. -/
def cacheErase (c : Cache) (k : String) : Cache :=
  c.filter (fun p => p.1 ≠ k)

/-- `self._article_cache[k] = v` (replaces an existing binding). -/
def cacheInsert (c : Cache) (k : String) (v : CacheEntry) : Cache :=
  cacheErase c k ++ [(k, v)]

/-- `CosmosHelper._is_cache_valid`:
`time.time() - entry.get('timestamp', 0) < self._cache_ttl` with TTL 300. -/
def is_cache_valid (now : ℚ) (e : CacheEntry) : Bool :=
  now - e.timestamp < 300

/-- `CosmosHelper._get_from_cache(article_ids)`: walk the requested ids,
collecting valid cached articles and the missing ids; expired entries are
deleted from the cache on the way.  Returns
(cached articles, missing ids, updated cache). -/
def get_from_cache (now : ℚ) : Cache → List String → List Doc × List String × Cache
  | c, [] => ([], [], c)
  | c, id :: rest =>
    match cacheLookup c id with
    | some e =>
      if is_cache_valid now e then
        let r := get_from_cache now c rest
        (e.article :: r.1, r.2.1, r.2.2)
      else
        let r := get_from_cache now (cacheErase c id) rest
        (r.1, id :: r.2.1, r.2.2)
    | none =>
      let r := get_from_cache now c rest
      (r.1, id :: r.2.1, r.2.2)

/-- One iteration of `CosmosHelper._update_cache`: store a fetched article
under its id with the current time unless the id is falsy
(`if article_id:`). -/
def cacheStep (now : ℚ) (c : Cache) (d : Doc) : Cache :=
  match d.id with
  | some s => if s ≠ "" then cacheInsert c s ⟨d, now⟩ else c
  | none => c

/-- `CosmosHelper._update_cache(articles)`: store each fetched article under
its id with the current time; articles with a falsy id are not cached. -/
def update_cache (now : ℚ) (c : Cache) : List Doc → Cache
  | [] => c
  | d :: rest => update_cache now (cacheStep now c d) rest

/-- The batched Cosmos query `SELECT ... WHERE c.id IN (missing_ids)`,
modelled as a filter of the abstract store contents. -/
def dbQueryByIds (store : List Doc) (ids : List String) : List Doc :=
  store.filter fun d =>
    match d.id with
    | some s => ids.contains s
    | none => false

/-- `CosmosHelper.get_articles_by_ids_optimized(article_ids)`: consult the
cache first; if nothing is missing return the cached articles, otherwise
fetch the missing ids from the store, refresh the cache with the fetched
documents, and return cached ++ fetched.  Returns
(result, updated cache, ids sent to the store). -/
def get_articles_by_ids_optimized (now : ℚ) (cache : Cache) (store : List Doc)
    (articleIds : List String) : List Doc × Cache × List String :=
  if articleIds.isEmpty then ([], cache, [])
  else if (get_from_cache now cache articleIds).2.1.isEmpty then
    ((get_from_cache now cache articleIds).1,
     (get_from_cache now cache articleIds).2.2, [])
  else
    ((get_from_cache now cache articleIds).1 ++
       dbQueryByIds store (get_from_cache now cache articleIds).2.1,
     update_cache now (get_from_cache now cache articleIds).2.2
       (dbQueryByIds store (get_from_cache now cache articleIds).2.1),
     (get_from_cache now cache articleIds).2.1)

/-- The parse status of a user's `recommendations_updated_at` field as seen by
`UserManager.should_skip_update`: absent (or falsy), present but unparsable
(`datetime.fromisoformat` raises), or parsed to a timestamp in seconds. -/
inductive TsField where
  | absent : TsField
  | unparsable : TsField
  | parsed (t : ℚ) : TsField

/-- `UserManager.should_skip_update(user_data, hours_threshold)`: skip iff a
last-update timestamp exists, parses, and
`(now - last_update).total_seconds() / 3600 < hours_threshold`; an absent
timestamp or a parse error (caught by the `try/except`) yields `False`. -/
def should_skip_update (now : ℚ) (f : TsField) (hoursThreshold : ℚ) : Bool :=
  match f with
  | .absent => false
  | .unparsable => false
  | .parsed t => (now - t) / 3600 < hoursThreshold

/-- The hardcoded list returned by `TrendingHelper._get_trending_from_twitter`
(before its `[:limit]` truncation). -/
def currentTrending : List String :=
  ["ai-advancements", "climate-action", "tech-innovation",
   "global-economy", "space-exploration"]

/-- First-seen-order deduplication with an accumulator of already-seen
elements. -/
def dedupFirstAux (seen : List String) : List String → List String
  | [] => []
  | x :: xs =>
    if seen.contains x then dedupFirstAux seen xs
    else x :: dedupFirstAux (x :: seen) xs

/-- First-seen-order deduplication, as performed by
`list(dict.fromkeys(...))`. -/
def dedupFirst (l : List String) : List String :=
  dedupFirstAux [] l

/-- `TrendingHelper._get_trending_from_newsapi(limit)` as seen by
`get_trending_topics`: consulted only when an API key is configured; `news`
is the feed's extracted topic list, `.error ()` meaning the request or the
extraction raised (the helper catches its own exceptions and returns `[]`);
on success the list is truncated to `limit` by the helper. -/
def trending_from_newsapi (hasKey : Bool) (news : Except Unit (List String))
    (limit : Nat) : List String :=
  if hasKey then
    (match news with
     | .ok l => l.take limit
     | .error _ => [])
  else []

/-- `TrendingHelper._get_trending_from_reddit(limit)`: the feed's extracted
topic list truncated to `limit`, or `[]` when the request raised (caught
inside the helper). -/
def trending_from_reddit (reddit : Except Unit (List String)) (limit : Nat) : List String :=
  match reddit with
  | .ok l => l.take limit
  | .error _ => []

/-- `TrendingHelper._get_trending_from_twitter(limit)`: always the hardcoded
list, truncated to `limit`. -/
def trending_from_twitter (limit : Nat) : List String :=
  currentTrending.take limit

/-- `TrendingHelper.get_trending_topics(limit)`: concatenate the NewsAPI feed
(consulted only when an API key is configured), the Reddit feed, and the
static "twitter" list; deduplicate preserving first-seen order
(`list(dict.fromkeys(...))`) and truncate to `limit`.  Nothing in the
surrounding `try` can raise after the helpers caught their own errors, so
the hardcoded fallback list of the outer `except` is unreachable and not
modelled. -/
def get_trending_topics (hasKey : Bool) (news reddit : Except Unit (List String))
    (limit : Nat) : List String :=
  (dedupFirst (trending_from_newsapi hasKey news limit ++
               trending_from_reddit reddit limit ++
               trending_from_twitter limit)).take limit

lemma round_mono_rat {x y : ℚ} (h : x ≤ y) : round x ≤ round y := by
  rw [round_eq, round_eq]
  exact Int.floor_mono (by linarith)

lemma round4_nonneg {q : ℚ} (h : 0 ≤ q) : 0 ≤ round4 q := by
  unfold round4
  have h1 : (0 : ℤ) ≤ round (q * 10000) := by
    have h2 := round_mono_rat (x := (0 : ℚ)) (y := q * 10000) (by nlinarith)
    simpa using h2
  have h3 : (0 : ℚ) ≤ (round (q * 10000) : ℚ) := by exact_mod_cast h1
  positivity

lemma round4_le_five {q : ℚ} (h : q ≤ 5) : round4 q ≤ 5 := by
  unfold round4
  have h1 : round (q * 10000) ≤ round ((50000 : ℤ) : ℚ) :=
    round_mono_rat (by push_cast; nlinarith)
  rw [round_intCast] at h1
  rw [div_le_iff₀ (by norm_num : (0:ℚ) < 10000)]
  exact_mod_cast le_trans h1 (by norm_num)

lemma round4_idem (q : ℚ) : round4 (round4 q) = round4 q := by
  unfold round4
  rw [div_mul_cancel₀ _ (by norm_num : (10000:ℚ) ≠ 0), round_intCast]

lemma parseTagEntry_score {strFloat : String → Option ℚ} {j : Json} {t : TagEntry}
    (h : parseTagEntry strFloat j = some t) : 1 ≤ t.score ∧ t.score ≤ 5 := by
  unfold parseTagEntry at h
  repeat split at h
  all_goals simp only [Option.some.injEq, reduceCtorEq] at h
  subst h
  exact ⟨le_max_left _ _, max_le (by norm_num) (min_le_left _ _)⟩

lemma parseArticleEntry_score {strFloat : String → Option ℚ} {j : Json} {a : ArticleEntry}
    (h : parseArticleEntry strFloat j = some a) :
    0 ≤ a.score ∧ a.score ≤ 5 ∧ round4 a.score = a.score := by
  unfold parseArticleEntry at h
  repeat split at h
  all_goals simp only [Option.some.injEq, reduceCtorEq] at h
  subst h
  refine ⟨round4_nonneg (le_max_left _ _),
          round4_le_five (max_le (by norm_num) (min_le_left _ _)), ?_⟩
  exact round4_idem _

/-- The LLM-output parser either fails over to the empty result or returns
the two entry loops' outputs on some iterable pair of JSON lists. -/
lemma parse_llm_only_output_cases (loads : String → Option Json)
    (strFloat : String → Option ℚ) (response : String) :
    parse_llm_only_output loads strFloat response = ⟨[], []⟩ ∨
    ∃ tlist alist, parse_llm_only_output loads strFloat response
      = ⟨parseTags strFloat tlist, parseArticles strFloat alist⟩ := by
  unfold parse_llm_only_output
  split
  · exact Or.inl rfl
  · split
    · split
      · exact Or.inr ⟨_, _, rfl⟩
      · exact Or.inl rfl
    · exact Or.inl rfl

/-- C3: for every input string given to the LLM-output parser, every tag
entry in the result has a score in `[1.0, 5.0]`, and every article entry has
a score in `[0.0, 5.0]` that is rounded to 4 decimal places (i.e. is a fixed
point of `round4`); entries lacking the `tag`/`id` field or whose score
fails numeric coercion never appear in the result. -/
theorem claim_C3_parser_score_bounds (loads : String → Option Json)
    (strFloat : String → Option ℚ) (response : String) :
    (∀ t ∈ (parse_llm_only_output loads strFloat response).tags,
        1 ≤ t.score ∧ t.score ≤ 5) ∧
    (∀ a ∈ (parse_llm_only_output loads strFloat response).articles,
        0 ≤ a.score ∧ a.score ≤ 5 ∧ round4 a.score = a.score) := by
  rcases parse_llm_only_output_cases loads strFloat response with h | ⟨tlist, alist, h⟩ <;>
    rw [h] <;> constructor
  · intro t ht; exact absurd ht (List.not_mem_nil t)
  · intro a ha; exact absurd ha (List.not_mem_nil a)
  · intro t ht
    obtain ⟨j, _, hje⟩ := List.mem_filterMap.mp ht
    exact parseTagEntry_score hje
  · intro a ha
    obtain ⟨j, _, hje⟩ := List.mem_filterMap.mp ha
    exact parseArticleEntry_score hje

/-- Concrete `json.loads` outcome used by the C3 witness: a reply whose tag
score 9 must be clamped to 5 and whose article score is 2. -/
def loadsWitC3 : String → Option Json := fun _ =>
  some (Json.obj
    [("tags", Json.arr [Json.obj [("tag", Json.str "t"), ("score", Json.num 9)]]),
     ("articles", Json.arr [Json.obj [("id", Json.str "a"), ("score", Json.num 2)]])])

theorem claim_C3_witness :
    (1 ≤ (5:ℚ) ∧ (5:ℚ) ≤ 5) ∧
    (0 ≤ round4 (max 0 (min 5 (2:ℚ))) ∧ round4 (max 0 (min 5 (2:ℚ))) ≤ 5 ∧
     round4 (round4 (max 0 (min 5 (2:ℚ)))) = round4 (max 0 (min 5 (2:ℚ)))) := by
  have htm : (⟨Json.str "t", 5, false⟩ : TagEntry)
      ∈ (parse_llm_only_output loadsWitC3 (fun _ => none) "x").tags := by
    have he : (parse_llm_only_output loadsWitC3 (fun _ => none) "x").tags
        = [⟨Json.str "t", 5, false⟩] := rfl
    rw [he]; exact List.mem_singleton.mpr rfl
  have ham : (⟨Json.str "a", round4 (max 0 (min 5 (2:ℚ))), false⟩ : ArticleEntry)
      ∈ (parse_llm_only_output loadsWitC3 (fun _ => none) "x").articles := by
    have he : (parse_llm_only_output loadsWitC3 (fun _ => none) "x").articles
        = [⟨Json.str "a", round4 (max 0 (min 5 (2:ℚ))), false⟩] := rfl
    rw [he]; exact List.mem_singleton.mpr rfl
  exact ⟨(claim_C3_parser_score_bounds loadsWitC3 (fun _ => none) "x").1 _ htm,
         (claim_C3_parser_score_bounds loadsWitC3 (fun _ => none) "x").2 _ ham⟩

/-- C4: for every input string that is not valid JSON after stripping the
optional code-fence markers (`loads` returns no value), the LLM-output
parser returns the empty `{tags: [], articles: []}` result instead of
raising. -/
theorem claim_C4_parse_failure_empty (loads : String → Option Json)
    (strFloat : String → Option ℚ) (response : String)
    (h : loads (stripFences response) = none) :
    parse_llm_only_output loads strFloat response = ⟨[], []⟩ := by
  unfold parse_llm_only_output
  rw [h]

theorem claim_C4_witness :
    (fun _ : String => (none : Option Json)) (stripFences "this is not json") = none ∧
    parse_llm_only_output (fun _ => none) (fun _ => none) "this is not json" = ⟨[], []⟩ :=
  ⟨rfl, claim_C4_parse_failure_empty (fun _ => none) (fun _ => none) "this is not json" rfl⟩

/-- C5: `should_skip_update` returns true iff the record carries a
last-update timestamp that parses and `now` minus that timestamp is strictly
less than the threshold in hours; at exactly the threshold it returns false,
and an absent or unparsable timestamp yields false (never skip). -/
theorem claim_C5_should_skip_update_iff (now : ℚ) (f : TsField) (thr : ℚ) :
    should_skip_update now f thr = true ↔
      ∃ t, f = TsField.parsed t ∧ now - t < thr * 3600 := by
  cases f with
  | absent => simp [should_skip_update]
  | unparsable => simp [should_skip_update]
  | parsed t =>
    simp only [should_skip_update, decide_eq_true_eq]
    constructor
    · intro h
      exact ⟨t, rfl, by rwa [div_lt_iff₀ (by norm_num : (0:ℚ) < 3600)] at h⟩
    · rintro ⟨t2, ht2, h⟩
      injection ht2 with h2
      subst h2
      rwa [div_lt_iff₀ (by norm_num : (0:ℚ) < 3600)]

/-- C2 (amended): the chat-completion request is attempted at most 3 times —
the outcome depends only on the first 3 oracle values — sleeping
`2^attempt` seconds between failed attempts; when all 3 attempts fail the
error is re-raised by `_call_chat_completion`, but its caller
`generate_llm_only_recommendations` catches it and returns the empty
sentinel `{tags: [], articles: []}` instead of propagating it further. -/
theorem claim_C2_retry_backoff_swallowed (oracle : Nat → Except Unit String)
    (loads : String → Option Json) (strFloat : String → Option ℚ) :
    ((∀ i, i < 3 → oracle i = .error ()) →
      call_chat_completion oracle 3 = ([1, 2], Except.error ()) ∧
      generate_llm_only_recommendations loads strFloat
        (call_chat_completion oracle 3).2 = ⟨[], []⟩) ∧
    (∀ oracle2 : Nat → Except Unit String, (∀ i, i < 3 → oracle i = oracle2 i) →
      call_chat_completion oracle 3 = call_chat_completion oracle2 3) := by
  constructor
  · intro h
    have e0 : oracle 0 = .error () := h 0 (by norm_num)
    have e1 : oracle 1 = .error () := h 1 (by norm_num)
    have e2 : oracle 2 = .error () := h 2 (by norm_num)
    have hc : call_chat_completion oracle 3 = ([1, 2], Except.error ()) := by
      rw [call_chat_completion, show List.range 3 = [0, 1, 2] from rfl]
      simp [call_attempts, e0, e1, e2]
    refine ⟨hc, ?_⟩
    rw [hc]
    rfl
  · intro oracle2 h
    rw [call_chat_completion, call_chat_completion,
        show List.range 3 = [0, 1, 2] from rfl]
    simp only [call_attempts]
    rw [h 0 (by norm_num), h 1 (by norm_num), h 2 (by norm_num)]

theorem claim_C2_witness :
    call_chat_completion (fun _ => .error ()) 3 = ([1, 2], Except.error ()) ∧
    generate_llm_only_recommendations (fun _ => none) (fun _ => none)
      (call_chat_completion (fun _ => .error ()) 3).2 = ⟨[], []⟩ :=
  (claim_C2_retry_backoff_swallowed (fun _ => .error ())
    (fun _ => none) (fun _ => none)).1 (fun _ _ => rfl)

/-- C2 (counterexample to the claim as stated): with every attempt failing,
the raised error does not propagate out of the recommendation-generation
step — `generate_llm_only_recommendations` converts it to the empty
sentinel, exactly like the other external-call failures. -/
theorem claim_C2_counterexample :
    (call_chat_completion (fun _ => .error ()) 3).2 = Except.error () ∧
    generate_llm_only_recommendations (fun _ => none) (fun _ => none)
      (call_chat_completion (fun _ => .error ()) 3).2 = ⟨[], []⟩ :=
  ⟨rfl, rfl⟩

lemma mem_of_mem_dedupFirstAux {x : String} :
    ∀ {l seen : List String}, x ∈ dedupFirstAux seen l → x ∈ l := by
  intro l
  induction l with
  | nil => intro seen h; exact absurd h (List.not_mem_nil x)
  | cons y ys ih =>
    intro seen h
    unfold dedupFirstAux at h
    by_cases hc : seen.contains y
    · rw [if_pos hc] at h
      exact List.mem_cons_of_mem y (ih h)
    · rw [if_neg hc] at h
      rcases List.mem_cons.mp h with h | h
      · exact h ▸ List.mem_cons_self y ys
      · exact List.mem_cons_of_mem y (ih h)

lemma dedupFirstAux_nodup :
    ∀ (l seen : List String),
      (dedupFirstAux seen l).Nodup ∧ ∀ x ∈ dedupFirstAux seen l, x ∉ seen := by
  intro l
  induction l with
  | nil => intro seen; simp [dedupFirstAux]
  | cons y ys ih =>
    intro seen
    unfold dedupFirstAux
    by_cases hc : seen.contains y
    · rw [if_pos hc]
      exact ih seen
    · rw [if_neg hc]
      obtain ⟨hnd, hni⟩ := ih (y :: seen)
      refine ⟨List.nodup_cons.mpr ⟨fun hy => ?_, hnd⟩, ?_⟩
      · exact hni y hy (List.mem_cons_self y seen)
      · intro x hx
        rcases List.mem_cons.mp hx with h | h
        · subst h
          intro hxs
          exact hc (by simpa using hxs)
        · intro hxs
          exact hni x h (List.mem_cons_of_mem y hxs)

lemma dedupFirstAux_eq_of_disjoint :
    ∀ (l seen : List String), (∀ x ∈ l, x ∉ seen) → l.Nodup →
      dedupFirstAux seen l = l := by
  intro l
  induction l with
  | nil => intro seen _ _; rfl
  | cons y ys ih =>
    intro seen hdisj hnd
    unfold dedupFirstAux
    have hy : y ∉ seen := hdisj y (List.mem_cons_self y ys)
    rw [if_neg (by simpa using hy)]
    congr 1
    refine ih (y :: seen) ?_ (List.nodup_cons.mp hnd).2
    intro x hx
    intro hmem
    rcases List.mem_cons.mp hmem with h | h
    · subst h
      exact (List.nodup_cons.mp hnd).1 hx
    · exact hdisj x (List.mem_cons_of_mem y hx) h

lemma dedupFirstAux_append_left :
    ∀ (l1 l2 seen : List String), (∀ x ∈ l1, x ∉ seen) → l1.Nodup →
      dedupFirstAux seen (l1 ++ l2) = l1 ++ dedupFirstAux (l1.reverse ++ seen) l2 := by
  intro l1
  induction l1 with
  | nil => intro l2 seen _ _; simp
  | cons y ys ih =>
    intro l2 seen hdisj hnd
    have hy : y ∉ seen := hdisj y (List.mem_cons_self y ys)
    have hd : ∀ x ∈ ys, x ∉ (y :: seen) := by
      intro x hx hmem
      rcases List.mem_cons.mp hmem with h | h
      · subst h
        exact (List.nodup_cons.mp hnd).1 hx
      · exact hdisj x (List.mem_cons_of_mem y hx) h
    rw [List.cons_append, dedupFirstAux, if_neg (by simpa using hy),
        ih l2 (y :: seen) hd (List.nodup_cons.mp hnd).2, List.reverse_cons,
        List.append_assoc, List.singleton_append, List.cons_append]

/-- C8 (amended): `get_trending_topics` concatenates the three feeds in
order, deduplicates by exact string equality preserving first-seen order and
truncates to the limit; but the third feed (the static curated list) is
always appended, it is not a fallback.  In the claimed scenario — keyed news
feed throws, social feed returns 3 fresh topics — `getTrendingTopics(5)`
returns those 3 topics followed by the first 2 entries of the static list,
with no error surfaced. -/
theorem claim_C8_trending_feeds (hasKey : Bool) (news reddit : Except Unit (List String))
    (limit : Nat) :
    ((get_trending_topics hasKey news reddit limit).length ≤ limit ∧
     (get_trending_topics hasKey news reddit limit).Nodup ∧
     ∀ x ∈ get_trending_topics hasKey news reddit limit,
       x ∈ trending_from_newsapi hasKey news limit ++
           trending_from_reddit reddit limit ++ trending_from_twitter limit) ∧
    (∀ ts : List String, reddit = .ok ts → ts.length = 3 → ts.Nodup →
      (∀ t ∈ ts, t ∉ currentTrending) →
      get_trending_topics true (.error ()) reddit 5
        = ts ++ ["ai-advancements", "climate-action"]) := by
  constructor
  · refine ⟨List.length_take_le _ _, ?_, ?_⟩
    · exact ((dedupFirstAux_nodup _ _).1).sublist (List.take_sublist _ _)
    · intro x hx
      exact mem_of_mem_dedupFirstAux (List.mem_of_mem_take hx)
  · intro ts hr hlen hnd hdisj
    subst hr
    have hts : ts.take 5 = ts := List.take_of_length_le (by omega)
    have h1 : trending_from_newsapi true (.error ()) 5 = [] := rfl
    have h2 : trending_from_reddit (.ok ts) 5 = ts := by
      rw [show trending_from_reddit (.ok ts) 5 = ts.take 5 from rfl, hts]
    have h3 : trending_from_twitter 5 = currentTrending := rfl
    unfold get_trending_topics dedupFirst
    rw [h1, h2, h3, List.nil_append]
    rw [dedupFirstAux_append_left ts currentTrending [] (by simp) hnd]
    rw [dedupFirstAux_eq_of_disjoint currentTrending (ts.reverse ++ []) ?hdj ?hndc]
    · rw [List.take_append_eq_append_take, hlen, List.take_of_length_le (by omega)]
      rfl
    case hdj =>
      intro x hx hmem
      rw [List.append_nil, List.mem_reverse] at hmem
      exact hdisj x hmem hx
    case hndc => decide

theorem claim_C8_witness :
    get_trending_topics true (.error ()) (.ok ["a", "b", "c"]) 5
      = ["a", "b", "c", "ai-advancements", "climate-action"] :=
  (claim_C8_trending_feeds true (.error ()) (.ok ["a", "b", "c"]) 5).2
    ["a", "b", "c"] rfl rfl (by decide) (by decide)

/-- C8 (counterexample to the claim as stated): with the keyed news feed
throwing and the social feed returning the 3 topics `a`, `b`, `c`,
`getTrendingTopics(5)` does not return exactly those 3 topics — the static
curated list is always appended, not held back as an unused fallback. -/
theorem claim_C8_counterexample :
    get_trending_topics true (.error ()) (.ok ["a", "b", "c"]) 5
      ≠ ["a", "b", "c"] := by
  decide

/-- The article ids present in a document list (`None`-keyed entries have no
string id). -/
def docIds (docs : List Doc) : List String :=
  docs.filterMap (·.id)

lemma enrichArticle_some {cands : List Doc} {a : ArticleEntry} {x : ArticleRec}
    (h : enrichArticle cands a = .ok (some x)) :
    a.id = Json.str x.id ∧ x.score = a.score ∧
    x.abstract = (if trendPrefixed x.id then trendingAbstract
                  else abstractById cands x.id) := by
  unfold enrichArticle at h
  by_cases ht : jsonTruthy a.id
  · rw [if_pos ht] at h
    cases hid : a.id <;> rw [hid] at h
    · exact absurd h (by simp)
    · exact absurd h (by simp)
    · exact absurd h (by simp)
    · rename_i s
      have h2 : (ArticleRec.mk s a.score
          (if trendPrefixed s then trendingAbstract else abstractById cands s)) = x :=
        Option.some.inj (Except.ok.inj h)
      exact ⟨by rw [← h2], by rw [← h2], by rw [← h2]⟩
    · exact absurd h (by simp)
    · exact absurd h (by simp)
  · rw [if_neg ht] at h
    exact absurd h (by simp)

lemma processArticlesLoop_ok_spec {cands : List Doc} :
    ∀ {l : List ArticleEntry} {out : List ArticleRec},
      processArticlesLoop cands l = .ok out →
      out.length ≤ l.length ∧
      ∀ r ∈ out, Json.str r.id ∈ l.map (·.id) ∧
        r.abstract = (if trendPrefixed r.id then trendingAbstract
                      else abstractById cands r.id) := by
  intro l
  induction l with
  | nil =>
    intro out h
    simp only [processArticlesLoop, Except.ok.injEq] at h
    subst h
    exact ⟨Nat.le_refl 0, fun r hr => absurd hr (List.not_mem_nil r)⟩
  | cons a rest ih =>
    intro out h
    unfold processArticlesLoop at h
    split at h
    · exact absurd h (by simp)
    · rename_i r hr
      split at h
      · exact absurd h (by simp)
      · rename_i rest' hrest
        simp only [Except.ok.injEq] at h
        subst h
        obtain ⟨ihlen, ihmem⟩ := ih hrest
        split
        · rename_i x
          refine ⟨by simpa using Nat.succ_le_succ ihlen, ?_⟩
          intro s hs
          rcases List.mem_cons.mp hs with hsx | hsr
          · subst hsx
            obtain ⟨hid, _, habs⟩ := enrichArticle_some hr
            exact ⟨by rw [List.map_cons, ← hid]; exact List.mem_cons_self _ _, habs⟩
          · obtain ⟨hmem, habs⟩ := ihmem s hsr
            exact ⟨by rw [List.map_cons]; exact List.mem_cons_of_mem _ hmem, habs⟩
        · refine ⟨Nat.le_succ_of_le ihlen, ?_⟩
          intro s hs
          obtain ⟨hmem, habs⟩ := ihmem s hs
          exact ⟨by rw [List.map_cons]; exact List.mem_cons_of_mem _ hmem, habs⟩

/-- C1 (amended): every article id stored by `_process_llm_output` comes from
the parsed LLM output itself; the code performs no validation against the
candidate or trending pools, so nothing stronger holds. -/
theorem claim_C1_ids_from_llm_output (llm : LlmOutput) (cands : List Doc) :
    ∀ r ∈ (process_llm_output llm cands).articles,
      Json.str r.id ∈ llm.articles.map (·.id) := by
  intro r hr
  unfold process_llm_output at hr
  split at hr
  · rename_i arts harts
    have hmem := ((processArticlesLoop_ok_spec harts).2 r hr).1
    obtain ⟨a, ha, haeq⟩ := List.mem_map.mp hmem
    exact List.mem_map.mpr ⟨a, List.mem_of_mem_take ha, haeq⟩
  · exact absurd hr (by simp)

theorem claim_C1_witness :
    Json.str "x" ∈
      (LlmOutput.mk [] [⟨Json.str "x", 1, false⟩]).articles.map (·.id) := by
  have he : (process_llm_output ⟨[], [⟨Json.str "x", 1, false⟩]⟩ []).articles
      = [⟨"x", 1, ""⟩] := rfl
  refine claim_C1_ids_from_llm_output ⟨[], [⟨Json.str "x", 1, false⟩]⟩ [] ⟨"x", 1, ""⟩ ?_
  rw [he]
  exact List.mem_singleton.mpr rfl

/-- C1 (counterexample to the claim as stated): with an empty candidate pool
and an empty trending pool, an LLM-returned id `x` that the pipeline never
offered is still stored — the stored id set is not a subset of
(candidate pool ∪ trending pool) ids. -/
theorem claim_C1_counterexample :
    ¬ (∀ r ∈ (process_llm_output ⟨[], [⟨Json.str "x", 1, false⟩]⟩ []).articles,
         r.id ∈ docIds [] ++ ([] : List String)) := by
  intro h
  have he : (process_llm_output ⟨[], [⟨Json.str "x", 1, false⟩]⟩ []).articles
      = [⟨"x", 1, ""⟩] := rfl
  have hx := h ⟨"x", 1, ""⟩ (by rw [he]; exact List.mem_singleton.mpr rfl)
  simp [docIds] at hx

/-- C9 (amended): the abstract stored by `_process_llm_output` is always
derived locally — the candidate pool's abstract (empty when the id is
unknown) for ordinary ids, and a fixed placeholder string for trend-prefixed
ids; the trend pool's own abstracts are never consulted, and the LLM's
abstract text never reaches this function (the parser drops it). -/
theorem claim_C9_local_abstract (llm : LlmOutput) (cands : List Doc) :
    ∀ r ∈ (process_llm_output llm cands).articles,
      r.abstract = (if trendPrefixed r.id then trendingAbstract
                    else abstractById cands r.id) := by
  intro r hr
  unfold process_llm_output at hr
  split at hr
  · rename_i arts harts
    exact ((processArticlesLoop_ok_spec harts).2 r hr).2
  · exact absurd hr (by simp)

theorem claim_C9_witness :
    (ArticleRec.abstract ⟨"a", 1, abstractById
        [⟨some "a", none, some "stored abstract", none, none, none⟩] "a"⟩)
      = (if trendPrefixed "a" then trendingAbstract
         else abstractById
           [⟨some "a", none, some "stored abstract", none, none, none⟩] "a") := by
  refine claim_C9_local_abstract ⟨[], [⟨Json.str "a", 1, false⟩]⟩
      [⟨some "a", none, some "stored abstract", none, none, none⟩] _ ?_
  have he : (process_llm_output ⟨[], [⟨Json.str "a", 1, false⟩]⟩
      [⟨some "a", none, some "stored abstract", none, none, none⟩]).articles
      = [⟨"a", 1, abstractById
          [⟨some "a", none, some "stored abstract", none, none, none⟩] "a"⟩] := rfl
  rw [he]
  exact List.mem_singleton.mpr rfl

/-- C9 (counterexample to the claim as stated): for a trend-sourced id the
stored abstract is the hardcoded placeholder, not the trend pool's abstract
for that id. -/
theorem claim_C9_counterexample :
    ¬ (∀ r ∈ (process_llm_output ⟨[], [⟨Json.str "trending-x-1", 2, true⟩]⟩ []).articles,
         r.abstract = (if trendPrefixed r.id
           then abstractById [⟨some "trending-x-1", none,
                               some "real trend abstract", none, none, none⟩] r.id
           else abstractById [] r.id)) := by
  intro h
  have he : (process_llm_output ⟨[], [⟨Json.str "trending-x-1", 2, true⟩]⟩ []).articles
      = [⟨"trending-x-1", 2, trendingAbstract⟩] := rfl
  have hx := h ⟨"trending-x-1", 2, trendingAbstract⟩
    (by rw [he]; exact List.mem_singleton.mpr rfl)
  rw [show trendPrefixed (ArticleRec.id ⟨"trending-x-1", 2, trendingAbstract⟩)
        = true from rfl] at hx
  rw [if_pos rfl] at hx
  rw [show abstractById [⟨some "trending-x-1", none, some "real trend abstract",
        none, none, none⟩] (ArticleRec.id ⟨"trending-x-1", 2, trendingAbstract⟩)
        = "real trend abstract" from rfl] at hx
  simp only [trendingAbstract] at hx
  exact absurd hx (by simp)

/-- C10: `_process_llm_output` keeps at most the first 20 tag entries and at
most the first 20 article entries, and each stored tag entry carries exactly
the fields `tag` and `score` (the wildcard flag is dropped); outside the
exception path the tags are exactly the first 20 parsed tags stripped to
those two fields and the articles are the article loop's output on the first
20 parsed article entries. -/
theorem claim_C10_truncate_and_strip (llm : LlmOutput) (cands : List Doc) :
    (process_llm_output llm cands).tags.length ≤ 20 ∧
    (process_llm_output llm cands).articles.length ≤ 20 ∧
    (process_llm_output llm cands = ⟨[], []⟩ ∨
     ((process_llm_output llm cands).tags
        = (llm.tags.take 20).map (fun t => TagRec.mk t.tag t.score) ∧
      processArticlesLoop cands (llm.articles.take 20)
        = .ok (process_llm_output llm cands).articles)) := by
  unfold process_llm_output
  split
  · rename_i arts harts
    refine ⟨?_, ?_, Or.inr ⟨rfl, harts⟩⟩
    · rw [List.length_map, List.length_take]
      exact min_le_left _ _
    · calc arts.length ≤ (llm.articles.take 20).length :=
            (processArticlesLoop_ok_spec harts).1
        _ ≤ 20 := by rw [List.length_take]; exact min_le_left _ _
  · exact ⟨by simp, by simp, Or.inl rfl⟩

/-- C6: no article returned by `get_candidate_articles` has an id in the
exclusion set, and every returned article carries an `abstract` and a `tags`
field (defaulted when absent upstream) — under both the filtered query and
the unfiltered fallback, since the post-filtering applies to whichever query
produced rows. -/
theorem claim_C6_candidate_pool (excludeIds : List String)
    (primaryItems fallbackItems : List Doc) :
    ∀ a ∈ get_candidate_articles excludeIds primaryItems fallbackItems,
      (∀ s, a.id = some s → s ∉ excludeIds) ∧ a.abstract ≠ none ∧ a.tags ≠ none := by
  intro a ha
  obtain ⟨it, hit, heq⟩ := List.mem_filterMap.mp ha
  by_cases hc : (match it.id with
      | some s => excludeIds.contains s
      | none => false) = true
  · rw [if_pos hc] at heq
    exact absurd heq (by simp)
  · rw [if_neg hc] at heq
    have h2 := Option.some.inj heq
    refine ⟨?_, ?_, ?_⟩
    · intro s hs hmem
      rw [← h2] at hs
      apply hc
      have hs2 : it.id = some s := hs
      rw [hs2]
      simpa using hmem
    · rw [← h2]
      simp
    · rw [← h2]
      simp

theorem claim_C6_witness :
    ((∀ s, (Doc.mk (some "k") none (some "") (some []) none none).id = some s →
        s ∉ ["e"]) ∧
     (Doc.mk (some "k") none (some "") (some []) none none).abstract ≠ none ∧
     (Doc.mk (some "k") none (some "") (some []) none none).tags ≠ none) := by
  refine claim_C6_candidate_pool ["e"]
    [Doc.mk (some "e") none none none none none,
     Doc.mk (some "k") none none none none none] [] _ ?_
  have he : get_candidate_articles ["e"]
      [Doc.mk (some "e") none none none none none,
       Doc.mk (some "k") none none none none none] []
      = [Doc.mk (some "k") none (some "") (some []) none none] := rfl
  rw [he]
  exact List.mem_singleton.mpr rfl

lemma cacheLookup_erase_ne : ∀ (c : Cache) (k id : String), id ≠ k →
    cacheLookup (cacheErase c k) id = cacheLookup c id := by
  intro c k id hne
  induction c with
  | nil => rfl
  | cons p rest ih =>
    unfold cacheErase cacheLookup at ih ⊢
    rw [List.filter_cons]
    by_cases hp : p.1 = k
    · rw [if_neg (by simpa using hp)]
      rw [List.find?_cons_of_neg _
        (by simp only [decide_eq_true_eq]; exact fun h => hne (h ▸ hp))]
      exact ih
    · rw [if_pos (by simpa using hp)]
      by_cases hq : p.1 = id
      · rw [List.find?_cons_of_pos _ (by simpa using hq),
            List.find?_cons_of_pos _ (by simpa using hq)]
      · rw [List.find?_cons_of_neg _ (by simpa using hq),
            List.find?_cons_of_neg _ (by simpa using hq)]
        exact ih

lemma cacheLookup_insert (c : Cache) (k : String) (v : CacheEntry) (s : String) :
    cacheLookup (cacheInsert c k v) s = if s = k then some v else cacheLookup c s := by
  by_cases h : s = k
  · subst h
    rw [if_pos rfl]
    show ((cacheErase c s ++ [(s, v)]).find? (fun p => p.1 = s)).map (·.2) = some v
    rw [List.find?_append]
    have hnone : (cacheErase c s).find? (fun p => decide (p.1 = s)) = none := by
      apply List.find?_eq_none.mpr
      intro x hx
      have hmem := List.mem_filter.mp hx
      simpa using (by simpa using hmem.2 : x.1 ≠ s)
    rw [hnone]
    simp [List.find?]
  · rw [if_neg h]
    show ((cacheErase c k ++ [(k, v)]).find? (fun p => p.1 = s)).map (·.2)
        = cacheLookup c s
    rw [List.find?_append]
    have hnone2 : [(k, v)].find? (fun p => decide (p.1 = s)) = none := by
      apply List.find?_eq_none.mpr
      intro x hx
      have hx2 : x = (k, v) := by simpa using hx
      subst hx2
      simp only [decide_eq_true_eq]
      exact fun hk => h hk.symm
    rw [hnone2, Option.or_none]
    exact cacheLookup_erase_ne c k s h

lemma cacheStep_insert {now : ℚ} {c : Cache} {d : Doc} {k : String}
    (hid : d.id = some k) (hk : k ≠ "") :
    cacheStep now c d = cacheInsert c k ⟨d, now⟩ := by
  simp [cacheStep, hid, hk]

lemma cacheStep_skip_none {now : ℚ} {c : Cache} {d : Doc} (hid : d.id = none) :
    cacheStep now c d = c := by
  simp [cacheStep, hid]

lemma cacheStep_skip_empty {now : ℚ} {c : Cache} {d : Doc}
    (hid : d.id = some "") : cacheStep now c d = c := by
  simp [cacheStep, hid]

lemma update_cache_lookup_untouched (now : ℚ) :
    ∀ (docs : List Doc) (c : Cache) (s : String),
      (∀ d ∈ docs, d.id = some s → s = "") →
      cacheLookup (update_cache now c docs) s = cacheLookup c s := by
  intro docs
  induction docs with
  | nil => intro c s _; rfl
  | cons d rest ih =>
    intro c s h
    rw [update_cache]
    have hrest : ∀ d2 ∈ rest, d2.id = some s → s = "" :=
      fun d2 hd2 => h d2 (List.mem_cons_of_mem d hd2)
    rw [ih _ s hrest]
    cases hid : d.id with
    | none => rw [cacheStep_skip_none hid]
    | some k =>
      by_cases hk : k = ""
      · subst hk
        rw [cacheStep_skip_empty hid]
      · rw [cacheStep_insert hid hk, cacheLookup_insert, if_neg ?_]
        intro hsk
        subst hsk
        exact hk (h d (List.mem_cons_self d rest) hid)

lemma update_cache_lookup_written (now : ℚ) :
    ∀ (docs : List Doc) (c : Cache) (s : String),
      (∃ d ∈ docs, d.id = some s ∧ s ≠ "") →
      ∃ d, d ∈ docs ∧ d.id = some s ∧
        cacheLookup (update_cache now c docs) s = some ⟨d, now⟩ := by
  intro docs
  induction docs with
  | nil =>
    intro c s h
    obtain ⟨d, hd, _⟩ := h
    exact absurd hd (List.not_mem_nil d)
  | cons d rest ih =>
    intro c s h
    by_cases hrest : ∃ d2 ∈ rest, d2.id = some s ∧ s ≠ ""
    · obtain ⟨d2, hd2, hid2, hlook⟩ := ih _ s hrest
      exact ⟨d2, List.mem_cons_of_mem d hd2, hid2, by rw [update_cache]; exact hlook⟩
    · obtain ⟨d0, hd0, hid0, hs0⟩ := h
      rcases List.mem_cons.mp hd0 with hd0d | hd0r
      · subst hd0d
        refine ⟨d0, List.mem_cons_self d0 rest, hid0, ?_⟩
        rw [update_cache, cacheStep_insert hid0 hs0]
        rw [update_cache_lookup_untouched now rest _ s ?hr, cacheLookup_insert,
            if_pos rfl]
        case hr =>
          intro d2 hd2 hid2
          by_contra hne
          exact hrest ⟨d2, hd2, hid2, hne⟩
      · exact absurd ⟨d0, hd0r, hid0, hs0⟩ hrest

lemma dbQueryByIds_nil (store : List Doc) : dbQueryByIds store [] = [] := by
  unfold dbQueryByIds
  induction store with
  | nil => rfl
  | cons d rest ih =>
    rw [List.filter_cons, if_neg ?_, ih]
    cases hd : d.id <;> simp

lemma get_from_cache_cons_none {now : ℚ} {c : Cache} {x : String}
    {rest : List String} (h : cacheLookup c x = none) :
    get_from_cache now c (x :: rest) =
      ((get_from_cache now c rest).1, x :: (get_from_cache now c rest).2.1,
       (get_from_cache now c rest).2.2) := by
  simp [get_from_cache, h]

lemma get_from_cache_cons_valid {now : ℚ} {c : Cache} {x : String}
    {rest : List String} {e : CacheEntry} (h : cacheLookup c x = some e)
    (hv : is_cache_valid now e = true) :
    get_from_cache now c (x :: rest) =
      (e.article :: (get_from_cache now c rest).1,
       (get_from_cache now c rest).2.1, (get_from_cache now c rest).2.2) := by
  simp [get_from_cache, h, hv]

lemma get_from_cache_cons_invalid {now : ℚ} {c : Cache} {x : String}
    {rest : List String} {e : CacheEntry} (h : cacheLookup c x = some e)
    (hv : is_cache_valid now e = false) :
    get_from_cache now c (x :: rest) =
      ((get_from_cache now (cacheErase c x) rest).1,
       x :: (get_from_cache now (cacheErase c x) rest).2.1,
       (get_from_cache now (cacheErase c x) rest).2.2) := by
  simp [get_from_cache, h, hv]

lemma get_from_cache_spec (now : ℚ) :
    ∀ (ids : List String) (c : Cache),
      (∀ id e, cacheLookup c id = some e → is_cache_valid now e = true →
         id ∉ (get_from_cache now c ids).2.1 ∧
         (id ∈ ids → e.article ∈ (get_from_cache now c ids).1)) ∧
      (∀ id ∈ ids, (∀ e, cacheLookup c id = some e → is_cache_valid now e = false) →
         id ∈ (get_from_cache now c ids).2.1) := by
  intro ids
  induction ids with
  | nil =>
    intro c
    refine ⟨fun id e _ _ => ⟨List.not_mem_nil id, fun h => absurd h (List.not_mem_nil id)⟩,
            fun id h => absurd h (List.not_mem_nil id)⟩
  | cons x rest ih =>
    intro c
    cases hl : cacheLookup c x with
    | none =>
      rw [get_from_cache_cons_none hl]
      obtain ⟨iha, ihb⟩ := ih c
      constructor
      · intro id e hlook hval
        have hne : id ≠ x := fun h => by rw [h, hl] at hlook; exact Option.noConfusion hlook
        obtain ⟨hnm, hm⟩ := iha id e hlook hval
        refine ⟨fun hc => ?_, fun hc => ?_⟩
        · rcases List.mem_cons.mp hc with h | h
          · exact hne h
          · exact hnm h
        · rcases List.mem_cons.mp hc with h | h
          · exact absurd h hne
          · exact hm h
      · intro id hid hinv
        by_cases hx : id = x
        · subst hx
          exact List.mem_cons_self id _
        · rcases List.mem_cons.mp hid with h | h
          · exact absurd h hx
          · exact List.mem_cons_of_mem x (ihb id h hinv)
    | some e0 =>
      by_cases hv : is_cache_valid now e0 = true
      · rw [get_from_cache_cons_valid hl hv]
        obtain ⟨iha, ihb⟩ := ih c
        constructor
        · intro id e hlook hval
          obtain ⟨hnm, hm⟩ := iha id e hlook hval
          refine ⟨hnm, fun hc => ?_⟩
          rcases List.mem_cons.mp hc with h | h
          · subst h
            rw [hl] at hlook
            have he : e0 = e := Option.some.inj hlook
            subst he
            exact List.mem_cons_self _ _
          · exact List.mem_cons_of_mem _ (hm h)
        · intro id hid hinv
          by_cases hx : id = x
          · subst hx
            exact absurd hv (by rw [hinv e0 hl]; simp)
          · rcases List.mem_cons.mp hid with h | h
            · exact absurd h hx
            · exact ihb id h hinv
      · rw [get_from_cache_cons_invalid hl (by simpa using hv)]
        obtain ⟨iha, ihb⟩ := ih (cacheErase c x)
        constructor
        · intro id e hlook hval
          have hne : id ≠ x := by
            intro h
            subst h
            rw [hl] at hlook
            have he : e0 = e := Option.some.inj hlook
            subst he
            exact hv hval
          have hlook2 : cacheLookup (cacheErase c x) id = some e := by
            rw [cacheLookup_erase_ne c x id hne]
            exact hlook
          obtain ⟨hnm, hm⟩ := iha id e hlook2 hval
          refine ⟨fun hc => ?_, fun hc => ?_⟩
          · rcases List.mem_cons.mp hc with h | h
            · exact hne h
            · exact hnm h
          · rcases List.mem_cons.mp hc with h | h
            · exact absurd h hne
            · exact hm h
        · intro id hid hinv
          by_cases hx : id = x
          · subst hx
            exact List.mem_cons_self id _
          · rcases List.mem_cons.mp hid with h | h
            · exact absurd h hx
            · refine List.mem_cons_of_mem x (ihb id h ?_)
              intro e he
              rw [cacheLookup_erase_ne c x id hx] at he
              exact hinv e he

/-- C7: the cached batch lookup serves an id with a cache entry younger than
the 300-second TTL from the cache — the id is never sent to the store and the
cached article object is in the result; an id whose entry is absent or at or
past the TTL is sent to the store; the result is always the merge
cached ++ freshly fetched, the store is queried exactly for the missing ids,
and every fetched document with a usable id refreshes the cache with the
current timestamp as a side effect. -/
theorem claim_C7_cached_batch_lookup (now : ℚ) (cache : Cache) (store : List Doc)
    (ids : List String) :
    (get_articles_by_ids_optimized now cache store ids).1
      = (get_from_cache now cache ids).1 ++
        dbQueryByIds store (get_from_cache now cache ids).2.1 ∧
    (get_articles_by_ids_optimized now cache store ids).2.2
      = (get_from_cache now cache ids).2.1 ∧
    (∀ id e, id ∈ ids → cacheLookup cache id = some e → is_cache_valid now e = true →
       id ∉ (get_articles_by_ids_optimized now cache store ids).2.2 ∧
       e.article ∈ (get_articles_by_ids_optimized now cache store ids).1) ∧
    (∀ id ∈ ids, (∀ e, cacheLookup cache id = some e → is_cache_valid now e = false) →
       id ∈ (get_articles_by_ids_optimized now cache store ids).2.2) ∧
    (∀ s, (∃ d ∈ dbQueryByIds store (get_from_cache now cache ids).2.1,
             d.id = some s ∧ s ≠ "") →
       ∃ d, d ∈ dbQueryByIds store (get_from_cache now cache ids).2.1 ∧
         d.id = some s ∧
         cacheLookup (get_articles_by_ids_optimized now cache store ids).2.1 s
           = some ⟨d, now⟩) := by
  by_cases hids : ids.isEmpty
  · have hnil : ids = [] := List.isEmpty_iff.mp hids
    subst hnil
    refine ⟨?_, rfl, ?_, ?_, ?_⟩
    · rw [show (get_from_cache now cache ([] : List String)).2.1 = [] from rfl,
          dbQueryByIds_nil]
      rfl
    · intro id e hid _ _
      exact absurd hid (List.not_mem_nil id)
    · intro id hid _
      exact absurd hid (List.not_mem_nil id)
    · intro s hex
      rw [show (get_from_cache now cache ([] : List String)).2.1 = [] from rfl,
          dbQueryByIds_nil] at hex
      obtain ⟨d, hd, _⟩ := hex
      exact absurd hd (List.not_mem_nil d)
  · by_cases hmiss : (get_from_cache now cache ids).2.1.isEmpty
    · have hm0 : (get_from_cache now cache ids).2.1 = [] := List.isEmpty_iff.mp hmiss
      have heq : get_articles_by_ids_optimized now cache store ids
          = ((get_from_cache now cache ids).1,
             (get_from_cache now cache ids).2.2, []) := by
        unfold get_articles_by_ids_optimized
        rw [if_neg hids, if_pos hmiss]
      refine ⟨?_, ?_, ?_, ?_, ?_⟩
      · rw [heq, hm0, dbQueryByIds_nil, List.append_nil]
      · rw [heq, hm0]
      · intro id e hid hlook hval
        obtain ⟨hnm, hm⟩ := ((get_from_cache_spec now ids cache).1) id e hlook hval
        rw [heq]
        exact ⟨List.not_mem_nil id, hm hid⟩
      · intro id hid hinv
        have h := (get_from_cache_spec now ids cache).2 id hid hinv
        rw [heq]
        rw [hm0] at h
        exact h
      · intro s hex
        rw [hm0, dbQueryByIds_nil] at hex
        obtain ⟨d, hd, _⟩ := hex
        exact absurd hd (List.not_mem_nil d)
    · have heq : get_articles_by_ids_optimized now cache store ids
          = ((get_from_cache now cache ids).1 ++
               dbQueryByIds store (get_from_cache now cache ids).2.1,
             update_cache now (get_from_cache now cache ids).2.2
               (dbQueryByIds store (get_from_cache now cache ids).2.1),
             (get_from_cache now cache ids).2.1) := by
        unfold get_articles_by_ids_optimized
        rw [if_neg hids, if_neg hmiss]
      refine ⟨by rw [heq], by rw [heq], ?_, ?_, ?_⟩
      · intro id e hid hlook hval
        obtain ⟨hnm, hm⟩ := ((get_from_cache_spec now ids cache).1) id e hlook hval
        rw [heq]
        exact ⟨hnm, List.mem_append_left _ (hm hid)⟩
      · intro id hid hinv
        rw [heq]
        exact (get_from_cache_spec now ids cache).2 id hid hinv
      · intro s hex
        rw [heq]
        exact update_cache_lookup_written now _ _ s hex

/-- Concrete documents and cache used by the C7 witness: id `a` is cached
200 seconds ago (fresh), id `b` is cached 400 seconds ago (expired). -/
def docWA : Doc := ⟨some "a", none, none, none, none, none⟩

def docWB : Doc := ⟨some "b", none, none, none, none, none⟩

def cacheW : Cache := [("a", ⟨docWA, 900⟩), ("b", ⟨docWB, 600⟩)]

theorem claim_C7_witness :
    ("a" ∉ (get_articles_by_ids_optimized 1000 cacheW [docWB] ["a", "b"]).2.2 ∧
     docWA ∈ (get_articles_by_ids_optimized 1000 cacheW [docWB] ["a", "b"]).1) ∧
    "b" ∈ (get_articles_by_ids_optimized 1000 cacheW [docWB] ["a", "b"]).2.2 ∧
    (∃ d, d ∈ dbQueryByIds [docWB] (get_from_cache 1000 cacheW ["a", "b"]).2.1 ∧
       d.id = some "b" ∧
       cacheLookup (get_articles_by_ids_optimized 1000 cacheW [docWB] ["a", "b"]).2.1 "b"
         = some ⟨d, 1000⟩) := by
  have h1 : cacheLookup cacheW "a" = some ⟨docWA, 900⟩ := rfl
  have hv1 : is_cache_valid 1000 ⟨docWA, 900⟩ = true := by
    norm_num [is_cache_valid]
  have h2 : cacheLookup cacheW "b" = some ⟨docWB, 600⟩ := rfl
  have hv2 : is_cache_valid 1000 ⟨docWB, 600⟩ = false := by
    norm_num [is_cache_valid]
  have T := claim_C7_cached_batch_lookup 1000 cacheW [docWB] ["a", "b"]
  refine ⟨T.2.2.1 "a" ⟨docWA, 900⟩ (by simp) h1 hv1, ?_, ?_⟩
  · refine T.2.2.2.1 "b" (by simp) ?_
    intro e he
    rw [h2] at he
    rw [← Option.some.inj he]
    exact hv2
  · refine T.2.2.2.2 "b" ?_
    have hm : (get_from_cache 1000 cacheW ["a", "b"]).2.1 = ["b"] := by
      rw [get_from_cache_cons_valid h1 hv1]
      show (get_from_cache 1000 cacheW ["b"]).2.1 = ["b"]
      rw [get_from_cache_cons_invalid h2 hv2]
      rfl
    rw [hm]
    refine ⟨docWB, ?_, rfl, by simp⟩
    rw [show dbQueryByIds [docWB] ["b"] = [docWB] from rfl]
    exact List.mem_singleton.mpr rfl

end AzureRec
